import Mathlib

/-!
Shallow embedding of `src/App.tsx`, the single React component of a personal
portfolio page.  The component fetches a GitHub profile and a repository list,
aggregates repository languages and topics into a skill list, merges that list
with a fixed icon lookup table, and renders the result.

The embedding models:
* the `GitHubUser` and `GitHubRepo` interfaces (App.tsx lines 22-44);
* `skillIconMap` (lines 50-60) as an insertion-ordered association list, which
  is the enumeration order of a JavaScript object literal with purely
  string-valued keys (`Object.entries`);
* the `fetchData` routine (lines 62-108) as a pure function of the outcomes of
  the two HTTP requests; an outcome is either a thrown exception or a completed
  response with an `ok` flag and a parsed body;
* `aggregatedSkills` (lines 113-131): the `skillCounts` record is an
  insertion-ordered association list (JavaScript object with string keys), and
  `Array.prototype.sort` with comparator `(a, b) => b.count - a.count` is a
  stable descending sort by count, modelled with `List.insertionSort`;
* the skills-section IIFE computing `finalSkills` (lines 228-240);
* the hero / about / blog-link rendering decisions (lines 159, 202-219).
-/

namespace Portfolio

/-- The `GitHubUser` interface (App.tsx lines 22-30). -/
structure GitHubUser where
  avatar_url : String
  name : String
  bio : String
  followers : Nat
  following : Nat
  location : String
  blog : String
deriving DecidableEq

/-- The `GitHubRepo` interface (App.tsx lines 32-44).  `language` is typed
`string` in TypeScript but the GitHub API returns `null` for repositories
without a language, and the code guards with JavaScript truthiness
(`if (repo.language)`), so it is modelled as `Option String`; the truthiness
check additionally rejects the empty string (see `truthyLang`).  `license` is
`{ name: string } | null`, modelled by the license name alone. -/
structure GitHubRepo where
  id : Nat
  name : String
  description : Option String
  stargazers_count : Nat
  forks_count : Nat
  language : Option String
  open_issues_count : Nat
  license : Option String
  html_url : String
  updated_at : String
  topics : List String
deriving DecidableEq

/-- The react-icons components used in `skillIconMap` and as fallback. -/
inductive IconComp where
  | faJsSquare
  | faReact
  | faNode
  | faCss3Alt
  | faDatabase
  | faHtml5
  | faGitAlt
  | faPython
  | faCode
deriving DecidableEq

/-- A rendered icon: component plus its `className` (the `size` prop is 20
everywhere and carries no information). -/
structure Icon where
  comp : IconComp
  className : String
deriving DecidableEq

/-- `skillIconMap` (App.tsx lines 50-60), in object-literal insertion order,
which is the `Object.entries` enumeration order for these (non-index) keys. -/
def skillIconMap : List (String × Icon) :=
  [ ("JavaScript", ⟨.faJsSquare, "text-yellow-500"⟩),
    ("TypeScript", ⟨.faJsSquare, "text-blue-400"⟩),
    ("React", ⟨.faReact, "text-blue-600"⟩),
    ("Node.js", ⟨.faNode, "text-green-600"⟩),
    ("TailwindCSS", ⟨.faCss3Alt, "text-blue-300"⟩),
    ("PostgreSQL", ⟨.faDatabase, "text-blue-800"⟩),
    ("HTML5", ⟨.faHtml5, "text-red-600"⟩),
    ("Git", ⟨.faGitAlt, "text-gray-700"⟩),
    ("Python", ⟨.faPython, "text-blue-400"⟩) ]

/-- The fallback icon `<FaCode className="text-gray-700" size={20} />` used for
aggregated skills absent from `skillIconMap` (App.tsx line 233). -/
def fallbackIcon : Icon := ⟨.faCode, "text-gray-700"⟩

/-- JavaScript truthiness of the `language` field: `null` and `""` are falsy,
every other string is truthy (`if (repo.language)`, App.tsx line 118). -/
def truthyLang (l : Option String) : Option String :=
  match l with
  | some s => if s = "" then none else some s
  | none => none

/-- The skill names one repository contributes, in the order the loop body of
`aggregatedSkills` processes them: the truthy primary language first (line
118-120), then each topic (lines 122-124). -/
def repoSkills (repo : GitHubRepo) : List String :=
  (match truthyLang repo.language with
   | some l => [l]
   | none => []) ++ repo.topics

/-- One increment step on the `skillCounts` record:
`skillCounts[k] = (skillCounts[k] || 0) + 1` on a JavaScript object with string
keys, i.e. an insertion-ordered association list: an existing key keeps its
position, a new key is appended with count 1. -/
def bump (m : List (String × Nat)) (k : String) : List (String × Nat) :=
  match m with
  | [] => [(k, 1)]
  | (k', c) :: rest => if k' = k then (k', c + 1) :: rest else (k', c) :: bump rest k

/-- The fully built `skillCounts` record (App.tsx lines 114-125): fold over the
repositories, and within each repository over its language-then-topics skills. -/
def skillCounts (repos : List GitHubRepo) : List (String × Nat) :=
  repos.foldl (fun m repo => (repoSkills repo).foldl bump m) []

/-- The order imposed by the comparator `(a, b) => b.count - a.count`
(App.tsx line 130): `a` may precede `b` when `b.count ≤ a.count`. -/
def countGE (a b : String × Nat) : Prop := b.2 ≤ a.2

instance : DecidableRel countGE := fun a b => (inferInstance : Decidable (b.2 ≤ a.2))

instance : IsTotal (String × Nat) countGE := ⟨fun a b => Nat.le_total b.2 a.2⟩

instance : IsTrans (String × Nat) countGE := ⟨fun _ _ _ h1 h2 => Nat.le_trans h2 h1⟩

/-- `aggregatedSkills` (App.tsx lines 113-131): `Object.entries(skillCounts)`
mapped to (name, count) pairs — which the association list already is — then
sorted with the stable descending-by-count sort. -/
def aggregatedSkills (repos : List GitHubRepo) : List (String × Nat) :=
  List.insertionSort countGE (skillCounts repos)

/-- The order imposed by the comparator
`(a, b) => b.stargazers_count - a.stargazers_count` (App.tsx lines 96-98). -/
def starsGE (a b : GitHubRepo) : Prop := b.stargazers_count ≤ a.stargazers_count

instance : DecidableRel starsGE :=
  fun a b => (inferInstance : Decidable (b.stargazers_count ≤ a.stargazers_count))

instance : IsTotal GitHubRepo starsGE := ⟨fun _ _ => Nat.le_total _ _⟩

instance : IsTrans GitHubRepo starsGE := ⟨fun _ _ _ h1 h2 => Nat.le_trans h2 h1⟩

/-- The stable descending-by-stars sort applied to the fetched repository page
(App.tsx lines 96-98). -/
def sortByStars (l : List GitHubRepo) : List GitHubRepo :=
  List.insertionSort starsGE l

/-- The repository list actually stored: `sorted.slice(0, 6)` (App.tsx
line 99). -/
def retainRepos (l : List GitHubRepo) : List GitHubRepo :=
  (sortByStars l).take 6

/-- The parsed body of the repository-list response: either an array of
repositories or some non-array JSON value (`Array.isArray(data)` dispatch,
App.tsx lines 95-103). -/
inductive ReposBody where
  | arr (repos : List GitHubRepo)
  | other (raw : String)
deriving DecidableEq

/-- The outcome of one `await fetch(...)` (plus body parse): either an
exception propagated to the enclosing `catch`, or a completed response with
its `ok` status and parsed body. -/
inductive FetchOutcome (α : Type) where
  | thrown
  | completed (ok : Bool) (body : α)
deriving DecidableEq

/-- The two pieces of component state (App.tsx lines 47-48), with their
`useState` initial values `null` and `[]`. -/
structure FetchState where
  user : Option GitHubUser
  repos : List GitHubRepo
deriving DecidableEq

/-- `useState(null)` / `useState([])`: the state before `fetchData` runs. -/
def initialState : FetchState := ⟨none, []⟩

/-- The `fetchData` routine (App.tsx lines 62-108) as a function of the two
request outcomes.  The returned `Bool` records whether the repository request
was issued at all: both awaits sit in a single `try`, so a thrown profile
request skips the repository request and lands in `catch`.  A failed (`!ok`)
response only logs and leaves the corresponding state untouched; an `ok`
repository response stores the sorted-and-truncated array, or `[]` when the
body is not an array. -/
def fetchData (u : FetchOutcome GitHubUser) (r : FetchOutcome ReposBody) :
    FetchState × Bool :=
  match u with
  | .thrown => (initialState, false)
  | .completed uok ubody =>
    let st1 : FetchState := if uok then ⟨some ubody, []⟩ else initialState
    match r with
    | .thrown => (st1, true)
    | .completed rok rbody =>
      if rok then
        match rbody with
        | .arr l => (⟨st1.user, retainRepos l⟩, true)
        | .other _ => (⟨st1.user, []⟩, true)
      else (st1, true)

/-- The hero heading `{user ? user.name : "Sohel Ansari"}` (App.tsx line 159). -/
def heroName (u : Option GitHubUser) : String :=
  match u with
  | some usr => usr.name
  | none => "Sohel Ansari"

/-- The static about-section placeholder paragraph (App.tsx line 205). -/
def defaultBio : String :=
  "I’m a frontend developer specializing in crafting engaging, accessible, and intuitive user interfaces. With a focus on React, TypeScript, and TailwindCSS, I turn ideas into polished products that users love."

/-- The about-section paragraph `{user ? user.bio : "I’m a frontend ..."}`
(App.tsx lines 202-206). -/
def aboutText (u : Option GitHubUser) : String :=
  match u with
  | some usr => usr.bio
  | none => defaultBio

/-- The blog anchor (App.tsx lines 207-219): rendered only when
`user && user.blog` is truthy, with href `user.blog` if it starts with
"http" and `https://` prepended otherwise.  `none` models "not rendered". -/
def blogLink (u : Option GitHubUser) : Option String :=
  match u with
  | some usr =>
    if usr.blog = "" then none
    else some (if usr.blog.startsWith "http" then usr.blog else "https://" ++ usr.blog)
  | none => none

/-- The aggregated skill names, i.e. `aggregatedSkills.map((s) => s.name)`,
the contents of `aggregatedSet` (App.tsx line 229). -/
def aggNames (repos : List GitHubRepo) : List String :=
  (aggregatedSkills repos).map Prod.fst

/-- `mostUsedSkills` (App.tsx lines 231-234): each aggregated name with its
icon from `skillIconMap`, or the fallback icon when absent. -/
def mostUsedSkills (repos : List GitHubRepo) : List (String × Icon) :=
  (aggregatedSkills repos).map fun s => (s.1, (List.lookup s.1 skillIconMap).getD fallbackIcon)

/-- `remainingSkills` (App.tsx lines 236-238): the `skillIconMap` entries whose
name is not in `aggregatedSet`, in table order. -/
def remainingSkills (repos : List GitHubRepo) : List (String × Icon) :=
  skillIconMap.filter fun p => !(aggNames repos).contains p.1

/-- `finalSkills = [...mostUsedSkills, ...remainingSkills]` (App.tsx
line 240). -/
def finalSkills (repos : List GitHubRepo) : List (String × Icon) :=
  mostUsedSkills repos ++ remainingSkills repos

/-- All skill-name occurrences the aggregation loop visits, in visit order. -/
def observedSkills (repos : List GitHubRepo) : List String :=
  (repos.map repoSkills).flatten

/-- Specification-side count: the number of repositories whose (truthy)
primary language is `name`. -/
def langCount (repos : List GitHubRepo) (name : String) : Nat :=
  (repos.filter fun r => truthyLang r.language = some name).length

/-- Specification-side count: the number of occurrences of `name` among all
repositories' topic lists. -/
def topicCount (repos : List GitHubRepo) (name : String) : Nat :=
  ((repos.map GitHubRepo.topics).flatten).count name

/-- Specification-side count: language occurrences plus topic occurrences. -/
def occTotal (repos : List GitHubRepo) (name : String) : Nat :=
  langCount repos name + topicCount repos name

/-- Lookup in the `skillCounts` record with JavaScript's `|| 0` default. -/
def lookupD (m : List (String × Nat)) (k : String) : Nat :=
  (List.lookup k m).getD 0

/-- The spec's concrete example:
`[{language:"Go",topics:["cli"]},{language:"Go",topics:[]}]` (other fields
arbitrary). -/
def exampleRepos : List GitHubRepo :=
  [ ⟨1, "r1", none, 0, 0, some "Go", 0, none, "", "", ["cli"]⟩,
    ⟨2, "r2", none, 0, 0, some "Go", 0, none, "", "", []⟩ ]

/-- A concrete profile used to instantiate the fetch and rendering theorems. -/
def exampleUser : GitHubUser :=
  ⟨"https://a.example/avatar.png", "Ada", "builds things", 3, 4, "Earth", "example.com"⟩

/-- A concrete page of seven repositories (distinct star counts) used to
instantiate the truncation theorem. -/
def exampleSeven : List GitHubRepo :=
  [ ⟨1, "a", none, 3, 0, none, 0, none, "", "", []⟩,
    ⟨2, "b", none, 1, 0, none, 0, none, "", "", []⟩,
    ⟨3, "c", none, 4, 0, none, 0, none, "", "", []⟩,
    ⟨4, "d", none, 1, 0, none, 0, none, "", "", []⟩,
    ⟨5, "e", none, 5, 0, none, 0, none, "", "", []⟩,
    ⟨6, "f", none, 9, 0, none, 0, none, "", "", []⟩,
    ⟨7, "g", none, 2, 0, none, 0, none, "", "", []⟩ ]

/-!
## Association-list lemmas

The `skillCounts` JavaScript object is modelled by the insertion-ordered
association list built with `bump`; these lemmas characterise its lookups and
its key set.
-/

theorem lookupD_cons (k k' : String) (c : Nat) (rest : List (String × Nat)) :
    lookupD ((k', c) :: rest) k = if k = k' then c else lookupD rest k := by
  by_cases h : k = k'
  · subst h; simp [lookupD, List.lookup]
  · have hb : (k == k') = false := by simpa using h
    simp [lookupD, List.lookup, hb, h]

theorem bump_lookupD (m : List (String × Nat)) (k k' : String) :
    lookupD (bump m k) k' = lookupD m k' + (if k' = k then 1 else 0) := by
  induction m with
  | nil =>
    rw [show bump [] k = [(k, 1)] from rfl, lookupD_cons]
    by_cases h : k' = k <;> simp [h, lookupD]
  | cons p rest ih =>
    obtain ⟨k0, c⟩ := p
    by_cases h0 : k0 = k
    · subst h0
      by_cases h1 : k' = k0 <;> simp [bump, lookupD_cons, h1]
    · rw [show bump ((k0, c) :: rest) k = (k0, c) :: bump rest k by simp [bump, h0]]
      by_cases h1 : k' = k0
      · have hne : ¬ k' = k := fun h => h0 (h1.symm.trans h)
        simp [lookupD_cons, h1, hne, h0]
      · simp [lookupD_cons, h1, ih]

theorem bump_keys (m : List (String × Nat)) (k : String) :
    (bump m k).map Prod.fst =
      if k ∈ m.map Prod.fst then m.map Prod.fst else m.map Prod.fst ++ [k] := by
  induction m with
  | nil => simp [bump]
  | cons p rest ih =>
    obtain ⟨k0, c⟩ := p
    by_cases h0 : k0 = k
    · subst h0; simp [bump]
    · have hk : ¬ k = k0 := fun h => h0 h.symm
      by_cases hm : k ∈ rest.map Prod.fst <;>
        simp [bump, h0, ih, hm, hk, List.mem_cons]

theorem bump_keys_nodup (m : List (String × Nat)) (k : String)
    (h : (m.map Prod.fst).Nodup) : ((bump m k).map Prod.fst).Nodup := by
  rw [bump_keys]
  by_cases hm : k ∈ m.map Prod.fst
  · simpa [hm]
  · rw [if_neg hm]
    apply List.Nodup.append h (List.nodup_singleton k)
    intro a ha hak
    rw [List.mem_singleton] at hak
    exact hm (hak ▸ ha)

theorem lookup_eq_some_of_mem (m : List (String × Nat)) (k : String) (c : Nat)
    (hnd : (m.map Prod.fst).Nodup) (hm : (k, c) ∈ m) : List.lookup k m = some c := by
  induction m with
  | nil => simp at hm
  | cons p rest ih =>
    obtain ⟨k0, c0⟩ := p
    rcases List.mem_cons.1 hm with h | h
    · obtain ⟨h1, h2⟩ := Prod.mk.injEq k c k0 c0 ▸ h
      subst h1; subst h2
      simp [List.lookup]
    · have hknd : (rest.map Prod.fst).Nodup := (List.nodup_cons.1 hnd).2
      have hk0 : k0 ∉ rest.map Prod.fst := (List.nodup_cons.1 hnd).1
      have hkmem : k ∈ rest.map Prod.fst := List.mem_map.2 ⟨(k, c), h, rfl⟩
      have hne : ¬ k = k0 := fun he => hk0 (he ▸ hkmem)
      have hb : (k == k0) = false := by simpa using hne
      simp [List.lookup, hb]
      exact ih hknd h

theorem mem_of_lookup_eq_some (m : List (String × Nat)) (k : String) (c : Nat)
    (h : List.lookup k m = some c) : (k, c) ∈ m := by
  induction m with
  | nil => simp [List.lookup] at h
  | cons p rest ih =>
    obtain ⟨k0, c0⟩ := p
    by_cases hk : k = k0
    · subst hk
      simp [List.lookup] at h
      simp [h]
    · have hb : (k == k0) = false := by simpa using hk
      simp [List.lookup, hb] at h
      exact List.mem_cons.2 (Or.inr (ih h))

theorem foldl_bump_lookupD (ws : List String) :
    ∀ (m : List (String × Nat)) (k : String),
      lookupD (ws.foldl bump m) k = lookupD m k + ws.count k := by
  induction ws with
  | nil => intro m k; simp
  | cons w ws ih =>
    intro m k
    rw [List.foldl_cons, ih, bump_lookupD, List.count_cons]
    by_cases h : k = w
    · subst h
      simp only [if_pos rfl, beq_self_eq_true, if_true]
      omega
    · have hb : (w == k) = false := by
        simpa using fun he => h he.symm
      simp only [if_neg h, hb, Bool.false_eq_true, if_false]
      omega

theorem foldl_bump_keys_subset (ws : List String) :
    ∀ (m : List (String × Nat)),
      ((ws.foldl bump m).map Prod.fst) ⊆ m.map Prod.fst ++ ws := by
  induction ws with
  | nil => intro m; simp
  | cons w ws ih =>
    intro m a ha
    have hsub := ih (bump m w) ha
    rw [bump_keys] at hsub
    by_cases hm : w ∈ m.map Prod.fst
    · rw [if_pos hm] at hsub
      rcases List.mem_append.1 hsub with h | h
      · exact List.mem_append.2 (Or.inl h)
      · exact List.mem_append.2 (Or.inr (List.mem_cons.2 (Or.inr h)))
    · rw [if_neg hm] at hsub
      rcases List.mem_append.1 hsub with h | h
      · rcases List.mem_append.1 h with h1 | h1
        · exact List.mem_append.2 (Or.inl h1)
        · rw [List.mem_singleton] at h1
          exact List.mem_append.2 (Or.inr (List.mem_cons.2 (Or.inl h1)))
      · exact List.mem_append.2 (Or.inr (List.mem_cons.2 (Or.inr h)))

theorem foldl_bump_nodup (ws : List String) :
    ∀ (m : List (String × Nat)), (m.map Prod.fst).Nodup →
      ((ws.foldl bump m).map Prod.fst).Nodup := by
  induction ws with
  | nil => intro m h; simpa
  | cons w ws ih => intro m h; exact ih _ (bump_keys_nodup m w h)

/-!
## The `skillCounts` record as a fold over all observed skill names
-/

theorem foldl_skills_eq (repos : List GitHubRepo) :
    ∀ (m : List (String × Nat)),
      repos.foldl (fun m repo => (repoSkills repo).foldl bump m) m
        = (observedSkills repos).foldl bump m := by
  induction repos with
  | nil => intro m; rfl
  | cons r rest ih =>
    intro m
    show rest.foldl _ ((repoSkills r).foldl bump m) = _
    rw [ih]
    simp [observedSkills, List.foldl_append]

theorem skillCounts_eq_foldl (repos : List GitHubRepo) :
    skillCounts repos = (observedSkills repos).foldl bump [] :=
  foldl_skills_eq repos []

theorem count_repoSkills (r : GitHubRepo) (k : String) :
    (repoSkills r).count k
      = (if truthyLang r.language = some k then 1 else 0) + r.topics.count k := by
  unfold repoSkills
  cases h : truthyLang r.language with
  | none => simp [h]
  | some l =>
    by_cases hl : l = k
    · subst hl
      simp [h, List.count_append, List.count_singleton]
      omega
    · have hb : (l == k) = false := by simpa using hl
      have hs : ¬ (some l = some k) := by simpa using hl
      simp [h, List.count_cons, hb, hs, hl]

theorem count_observedSkills (repos : List GitHubRepo) (k : String) :
    (observedSkills repos).count k = occTotal repos k := by
  induction repos with
  | nil => rfl
  | cons r rest ih =>
    have hcons : observedSkills (r :: rest) = repoSkills r ++ observedSkills rest := by
      simp [observedSkills]
    rw [hcons, List.count_append, count_repoSkills, ih]
    unfold occTotal langCount topicCount
    by_cases h : truthyLang r.language = some k <;>
      simp [h, List.filter_cons, List.count_append] <;> omega

theorem lookupD_skillCounts (repos : List GitHubRepo) (k : String) :
    lookupD (skillCounts repos) k = occTotal repos k := by
  rw [skillCounts_eq_foldl, foldl_bump_lookupD, count_observedSkills]
  simp [lookupD]

theorem skillCounts_keys_nodup (repos : List GitHubRepo) :
    ((skillCounts repos).map Prod.fst).Nodup := by
  rw [skillCounts_eq_foldl]
  exact foldl_bump_nodup _ [] (by simp)

theorem mem_skillCounts_iff (repos : List GitHubRepo) (k : String) (c : Nat) :
    (k, c) ∈ skillCounts repos ↔ 0 < occTotal repos k ∧ c = occTotal repos k := by
  constructor
  · intro hm
    have hlk : List.lookup k (skillCounts repos) = some c :=
      lookup_eq_some_of_mem _ _ _ (skillCounts_keys_nodup repos) hm
    have hc : c = occTotal repos k := by
      have := lookupD_skillCounts repos k
      rw [lookupD, hlk] at this
      simpa using this
    have hkmem : k ∈ (skillCounts repos).map Prod.fst := List.mem_map.2 ⟨(k, c), hm, rfl⟩
    rw [skillCounts_eq_foldl] at hkmem
    have hobs : k ∈ observedSkills repos := by
      have := foldl_bump_keys_subset (observedSkills repos) [] hkmem
      simpa using this
    have hpos : 0 < (observedSkills repos).count k := List.count_pos_iff.2 hobs
    rw [count_observedSkills] at hpos
    exact ⟨hpos, hc⟩
  · rintro ⟨hpos, rfl⟩
    have hlkD := lookupD_skillCounts repos k
    rw [lookupD] at hlkD
    cases hlk : List.lookup k (skillCounts repos) with
    | none => rw [hlk] at hlkD; simp at hlkD; omega
    | some c' =>
      rw [hlk] at hlkD
      simp at hlkD
      exact hlkD ▸ mem_of_lookup_eq_some _ _ _ hlk

/-!
## The sorted aggregation and the final combined skill list
-/

theorem aggregatedSkills_perm (repos : List GitHubRepo) :
    List.Perm (aggregatedSkills repos) (skillCounts repos) :=
  List.perm_insertionSort countGE (skillCounts repos)

theorem mem_aggregatedSkills_iff (repos : List GitHubRepo) (k : String) (c : Nat) :
    (k, c) ∈ aggregatedSkills repos ↔ 0 < occTotal repos k ∧ c = occTotal repos k := by
  rw [(aggregatedSkills_perm repos).mem_iff, mem_skillCounts_iff]

theorem aggregatedSkills_sorted (repos : List GitHubRepo) :
    (aggregatedSkills repos).Pairwise countGE :=
  List.sorted_insertionSort countGE (skillCounts repos)

theorem aggNames_nodup (repos : List GitHubRepo) : (aggNames repos).Nodup :=
  ((aggregatedSkills_perm repos).map Prod.fst).nodup_iff.2 (skillCounts_keys_nodup repos)

theorem mem_aggNames_iff (repos : List GitHubRepo) (k : String) :
    k ∈ aggNames repos ↔ 0 < occTotal repos k := by
  unfold aggNames
  constructor
  · intro hk
    rcases List.mem_map.1 hk with ⟨p, hmem, hfst⟩
    obtain ⟨k', c⟩ := p
    cases hfst
    exact ((mem_aggregatedSkills_iff repos _ c).1 hmem).1
  · intro h
    exact List.mem_map.2
      ⟨(k, occTotal repos k), (mem_aggregatedSkills_iff repos k _).2 ⟨h, rfl⟩, rfl⟩

theorem map_fst_filter_keys (t : List (String × Icon)) (p : String → Bool) :
    (t.filter fun q => p q.1).map Prod.fst = (t.map Prod.fst).filter p := by
  induction t with
  | nil => rfl
  | cons q rest ih => by_cases h : p q.1 <;> simp [List.filter_cons, h, ih]

theorem finalSkills_names (repos : List GitHubRepo) :
    (finalSkills repos).map Prod.fst =
      aggNames repos ++ (skillIconMap.map Prod.fst).filter
        (fun n => !(aggNames repos).contains n) := by
  unfold finalSkills mostUsedSkills remainingSkills
  rw [List.map_append]
  congr 1
  · rw [List.map_map]; rfl
  · exact map_fst_filter_keys skillIconMap (fun n => !(aggNames repos).contains n)

theorem skillIconMap_names_nodup : (skillIconMap.map Prod.fst).Nodup := by
  decide

theorem mem_observed_iff_mem_aggNames (repos : List GitHubRepo) (k : String) :
    k ∈ observedSkills repos ↔ k ∈ aggNames repos := by
  rw [mem_aggNames_iff, ← count_observedSkills, List.count_pos_iff]

theorem finalNames_count_table (repos : List GitHubRepo) (n : String)
    (hn : n ∈ skillIconMap.map Prod.fst) :
    ((finalSkills repos).map Prod.fst).count n = 1 := by
  rw [finalSkills_names, List.count_append]
  by_cases h : n ∈ aggNames repos
  · have h1 : (aggNames repos).count n = 1 :=
      List.count_eq_one_of_mem (aggNames_nodup repos) h
    have h2 : n ∉ (skillIconMap.map Prod.fst).filter
        (fun m => !(aggNames repos).contains m) := by
      intro hmem
      have hp := (List.mem_filter.1 hmem).2
      simp at hp
      exact hp h
    rw [h1, List.count_eq_zero.2 h2]
  · have h1 : (aggNames repos).count n = 0 := List.count_eq_zero.2 h
    have hp : (!(aggNames repos).contains n) = true := by simp [h]
    have h2 : List.count n (List.filter (fun m => !(aggNames repos).contains m)
        (skillIconMap.map Prod.fst)) = List.count n (skillIconMap.map Prod.fst) :=
      List.count_filter hp
    rw [h1, h2, List.count_eq_one_of_mem skillIconMap_names_nodup hn]

theorem dedup_observed_subset_finalNames (repos : List GitHubRepo) :
    (observedSkills repos).dedup ⊆ (finalSkills repos).map Prod.fst := by
  intro k hk
  rw [List.mem_dedup] at hk
  rw [finalSkills_names]
  exact List.mem_append.2 (Or.inl ((mem_observed_iff_mem_aggNames repos k).1 hk))

theorem sortByStars_perm (l : List GitHubRepo) : List.Perm (sortByStars l) l :=
  List.perm_insertionSort starsGE l

theorem sortByStars_sorted (l : List GitHubRepo) : (sortByStars l).Pairwise starsGE :=
  List.sorted_insertionSort starsGE l

/-!
## Claim theorems
-/

/-- Claim C1: for every repository list, `aggregatedSkills` returns exactly the
(name, count) pairs in which each name's count is the number of repositories
whose primary language is that name plus the number of occurrences of that name
among all topic lists, with no other entries, sorted by count descending; on
the spec's example input it returns Go with count 2 before cli with count 1. -/
theorem aggregatedSkills_correct (repos : List GitHubRepo) :
    (∀ p ∈ aggregatedSkills repos,
        0 < occTotal repos p.1 ∧ p.2 = occTotal repos p.1) ∧
    (∀ name, 0 < occTotal repos name →
        (name, occTotal repos name) ∈ aggregatedSkills repos) ∧
    (aggNames repos).Nodup ∧
    (aggregatedSkills repos).Pairwise (fun a b => b.2 ≤ a.2) ∧
    aggregatedSkills exampleRepos = [("Go", 2), ("cli", 1)] := by
  refine ⟨?_, ?_, aggNames_nodup repos, aggregatedSkills_sorted repos, by decide⟩
  · rintro ⟨k, c⟩ hp
    have h := (mem_aggregatedSkills_iff repos k c).1 hp
    exact ⟨h.1, h.2⟩
  · intro name h
    exact (mem_aggregatedSkills_iff repos name _).2 ⟨h, rfl⟩

theorem aggregatedSkills_correct_witness :
    ("Go", occTotal exampleRepos "Go") ∈ aggregatedSkills exampleRepos :=
  (aggregatedSkills_correct exampleRepos).2.1 "Go" (by decide)

/-- Claim C2: the final combined skill list is the aggregated skills (in
aggregated order) followed by exactly the lookup-table entries whose names are
not among the aggregated names, in table order; every lookup-table name appears
exactly once in the combined list, whose length is at least the number of
distinct observed (language ∪ topic) names. -/
theorem finalSkills_combination (repos : List GitHubRepo) :
    ((finalSkills repos).map Prod.fst =
      aggNames repos ++ (skillIconMap.map Prod.fst).filter
        (fun n => !(aggNames repos).contains n)) ∧
    (∀ n ∈ skillIconMap.map Prod.fst,
        ((finalSkills repos).map Prod.fst).count n = 1) ∧
    ((observedSkills repos).dedup).length ≤ (finalSkills repos).length := by
  refine ⟨finalSkills_names repos, fun n hn => finalNames_count_table repos n hn, ?_⟩
  have h1 := (List.nodup_dedup (observedSkills repos)).subperm
    (dedup_observed_subset_finalNames repos)
  have h2 := h1.length_le
  simpa using h2

theorem finalSkills_combination_witness :
    ((finalSkills exampleRepos).map Prod.fst).count "Python" = 1 :=
  (finalSkills_combination exampleRepos).2.1 "Python" (by decide)

/-- Claim C3: if the repository-list response body is not an array, the stored
repository state is the empty list, for any non-array payload and any outcome
of the earlier profile request. -/
theorem fetchData_nonArray_repos_empty (u : FetchOutcome GitHubUser) (raw : String) :
    (fetchData u (.completed true (.other raw))).1.repos = [] := by
  cases u with
  | thrown => rfl
  | completed uok ubody => cases uok <;> rfl

/-- Claim C4: the retained repository list is the fetched page sorted by
descending star count and truncated to six: for pages longer than six its
length is exactly six; for pages of at most six everything is retained (as a
permutation); it is sorted descending by stars; together with the dropped
entries it is a permutation of the page; and every dropped entry has at most
as many stars as every retained entry. -/
theorem retainRepos_correct (l : List GitHubRepo) :
    (6 < l.length → (retainRepos l).length = 6) ∧
    (l.length ≤ 6 → List.Perm (retainRepos l) l) ∧
    (retainRepos l).Pairwise (fun a b => b.stargazers_count ≤ a.stargazers_count) ∧
    List.Perm (retainRepos l ++ (sortByStars l).drop 6) l ∧
    (∀ a ∈ retainRepos l, ∀ b ∈ (sortByStars l).drop 6,
        b.stargazers_count ≤ a.stargazers_count) := by
  have hlen : (sortByStars l).length = l.length := (sortByStars_perm l).length_eq
  have hsorted := sortByStars_sorted l
  have hsplit : retainRepos l ++ (sortByStars l).drop 6 = sortByStars l :=
    List.take_append_drop 6 (sortByStars l)
  refine ⟨?_, ?_, ?_, ?_, ?_⟩
  · intro h
    unfold retainRepos
    rw [List.length_take, hlen]
    omega
  · intro h
    unfold retainRepos
    rw [List.take_of_length_le (by omega : (sortByStars l).length ≤ 6)]
    exact sortByStars_perm l
  · exact List.Pairwise.sublist (List.take_sublist 6 _) hsorted
  · rw [hsplit]
    exact sortByStars_perm l
  · have hp : List.Pairwise starsGE (retainRepos l ++ (sortByStars l).drop 6) := by
      rw [hsplit]
      exact hsorted
    exact fun a ha b hb => (List.pairwise_append.1 hp).2.2 a ha b hb

theorem retainRepos_correct_witness :
    (retainRepos exampleSeven).length = 6 :=
  (retainRepos_correct exampleSeven).1 (by decide)

/-- Claim C5: the skill aggregation is a deterministic pure function of the
repository list: two calls on the same list give identical output, and the
output depends only on the input. -/
theorem aggregatedSkills_pure (repos : List GitHubRepo) :
    aggregatedSkills repos = aggregatedSkills repos ∧
    ∀ repos2, repos = repos2 → aggregatedSkills repos = aggregatedSkills repos2 :=
  ⟨rfl, fun _ h => h ▸ rfl⟩

theorem aggregatedSkills_pure_witness :
    aggregatedSkills exampleRepos = aggregatedSkills exampleRepos :=
  (aggregatedSkills_pure exampleRepos).2 exampleRepos rfl

/-- Claim C6: a failed (non-ok) HTTP status leaves the corresponding state at
its previous value: a failed profile response leaves the profile unset, and a
failed repository response leaves the repository list empty. -/
theorem fetchData_failed_status (u : FetchOutcome GitHubUser) (r : FetchOutcome ReposBody) :
    (∀ b, u = .completed false b → (fetchData u r).1.user = none) ∧
    (∀ b, r = .completed false b → (fetchData u r).1.repos = []) := by
  constructor
  · rintro b rfl
    cases r with
    | thrown => rfl
    | completed rok rbody => cases rok <;> cases rbody <;> rfl
  · rintro b rfl
    cases u with
    | thrown => rfl
    | completed uok ubody => cases uok <;> rfl

theorem fetchData_failed_status_witness :
    (fetchData (.completed false exampleUser) (.completed false (.arr []))).1.user = none :=
  (fetchData_failed_status (.completed false exampleUser)
    (.completed false (.arr []))).1 exampleUser rfl

/-- Claim C7: when the profile fetch completes with a failing status but the
repository fetch succeeds with an array, the repository request is still
issued and its result stored (nonempty whenever the page is nonempty), while
the hero and about sections render the static placeholder text. -/
theorem fetchData_profile_fail_repos_ok (ub : GitHubUser) (l : List GitHubRepo) :
    (fetchData (.completed false ub) (.completed true (.arr l))).2 = true ∧
    (fetchData (.completed false ub) (.completed true (.arr l))).1.repos = retainRepos l ∧
    (fetchData (.completed false ub) (.completed true (.arr l))).1.user = none ∧
    (l ≠ [] →
      (fetchData (.completed false ub) (.completed true (.arr l))).1.repos ≠ []) ∧
    heroName (fetchData (.completed false ub) (.completed true (.arr l))).1.user
      = "Sohel Ansari" ∧
    aboutText (fetchData (.completed false ub) (.completed true (.arr l))).1.user
      = defaultBio := by
  refine ⟨rfl, rfl, rfl, ?_, rfl, rfl⟩
  intro hne
  show retainRepos l ≠ []
  have hlen : (sortByStars l).length = l.length := (sortByStars_perm l).length_eq
  have hpos : 0 < l.length := List.length_pos.2 hne
  have hres : 0 < (retainRepos l).length := by
    unfold retainRepos
    rw [List.length_take, hlen]
    omega
  exact List.length_pos.1 hres

theorem fetchData_profile_fail_repos_ok_witness :
    (fetchData (.completed false exampleUser)
      (.completed true (.arr exampleSeven))).1.repos ≠ [] :=
  (fetchData_profile_fail_repos_ok exampleUser exampleSeven).2.2.2.1 (by decide)

/-- Claim C8: if the profile request throws, the repository request is never
issued (both awaits share one try/catch), and the repository list stays empty
regardless of what the repository endpoint would have returned. -/
theorem fetchData_profile_thrown (r : FetchOutcome ReposBody) :
    (fetchData .thrown r).2 = false ∧
    (fetchData .thrown r).1.repos = [] ∧
    (fetchData .thrown r).1.user = none :=
  ⟨rfl, rfl, rfl⟩

/-- Claim C9: the names in the final combined skill list are pairwise
distinct. -/
theorem finalSkills_names_nodup (repos : List GitHubRepo) :
    ((finalSkills repos).map Prod.fst).Nodup := by
  rw [finalSkills_names]
  apply List.Nodup.append (aggNames_nodup repos)
    (List.Nodup.filter _ skillIconMap_names_nodup)
  intro a ha hb
  have hp := (List.mem_filter.1 hb).2
  simp at hp
  exact hp ha

/-- Claim C10: the blog link is rendered exactly when the profile is set with a
nonempty blog field, and its URL is the blog value itself when it starts with
"http", and the blog value with "https://" prepended otherwise. -/
theorem blogLink_correct (u : Option GitHubUser) :
    ((blogLink u).isSome ↔ ∃ usr, u = some usr ∧ usr.blog ≠ "") ∧
    (∀ usr, u = some usr → usr.blog ≠ "" →
      blogLink u = some (if usr.blog.startsWith "http" then usr.blog
                         else "https://" ++ usr.blog)) := by
  constructor
  · cases u with
    | none => simp [blogLink]
    | some usr => by_cases h : usr.blog = "" <;> simp [blogLink, h]
  · rintro usr rfl h
    simp [blogLink, h]

theorem blogLink_correct_witness :
    blogLink (some exampleUser)
      = some (if exampleUser.blog.startsWith "http" then exampleUser.blog
              else "https://" ++ exampleUser.blog) :=
  (blogLink_correct (some exampleUser)).2 exampleUser rfl (by decide)

end Portfolio
